import Mathlib

/-!
Verification of the particle morph animation engine of the 3d-particles
repository.  The per-frame interpolation, easing, stagger, rotation,
shape-generation and phase-cycling routines are embedded as executable
rational-valued functions, translated directly from the TypeScript source
(HeroAnimation.tsx, WineBottleGeometry.tsx, TShirtGeometry.tsx and the
unnamed engine snapshots).  Trigonometric values are passed as abstract
parameters constrained by the Pythagorean identity, so every definition
stays computable.
-/

namespace ParticleMorph

/-- A 3D point, one particle position. -/
abbrev Pt := ℚ × ℚ × ℚ

/-- three.js MathUtils.lerp: linear interpolation x + (y - x) * t. -/
def lerp (x y t : ℚ) : ℚ := (1 - t) * x + t * y

/-- easeInOutCubic from HeroAnimation.tsx:
t < 0.5 ? 4 t^3 : 1 - ((-2t + 2)^3) / 2. -/
def easeInOutCubic (t : ℚ) : ℚ :=
  if t < 1/2 then 4 * t * t * t else 1 - (-2 * t + 2)^3 / 2

/-- Math.max(0, Math.min(1, x)). -/
def clamp01 (x : ℚ) : ℚ := max 0 (min 1 x)

/-- Per-particle stagger offset: (pointIndex / pointCount) * 0.3. -/
def stagger (k n : ℕ) : ℚ := ((k : ℚ) / (n : ℚ)) * (3/10)

/-- Per-particle local progress:
Math.max(0, Math.min(1, (progress - stagger) / (1 - stagger))). -/
def localProgress (p : ℚ) (k n : ℕ) : ℚ :=
  clamp01 ((p - stagger k n) / (1 - stagger k n))

lemma stagger_nonneg (k n : ℕ) : 0 ≤ stagger k n := by
  unfold stagger
  positivity

lemma stagger_lt_one {k n : ℕ} (h : k < n) : stagger k n < 1 := by
  unfold stagger
  have hn : (0:ℚ) < n := by
    exact_mod_cast Nat.lt_of_le_of_lt (Nat.zero_le k) h
  have hq : (k:ℚ) / n < 1 := (div_lt_one hn).mpr (by exact_mod_cast h)
  have hq0 : 0 ≤ (k:ℚ) / n := by positivity
  nlinarith

lemma stagger_mono {i j : ℕ} (n : ℕ) (hn : 0 < n) (h : i ≤ j) :
    stagger i n ≤ stagger j n := by
  unfold stagger
  have hnq : (0:ℚ) < n := by exact_mod_cast hn
  have hij : (i:ℚ) ≤ j := by exact_mod_cast h
  have hdiv : (i:ℚ) / n ≤ (j:ℚ) / n := (div_le_div_right hnq).mpr hij
  nlinarith

lemma morph_ratio_antitone {p s₁ s₂ : ℚ} (h12 : s₁ ≤ s₂) (h2 : s₂ < 1) (hp : p ≤ 1) :
    (p - s₂) / (1 - s₂) ≤ (p - s₁) / (1 - s₁) := by
  have h1 : s₁ < 1 := lt_of_le_of_lt h12 h2
  rw [div_le_div_iff (by linarith) (by linarith)]
  nlinarith

lemma clamp01_mono {a b : ℚ} (h : a ≤ b) : clamp01 a ≤ clamp01 b :=
  max_le_max (le_refl 0) (min_le_min (le_refl 1) h)

lemma clamp01_of_nonpos {x : ℚ} (h : x ≤ 0) : clamp01 x = 0 :=
  max_eq_left (le_trans (min_le_right 1 x) h)

/-- Claim C5: for particle indices i < j < pointCount and any common progress
value in [0, 1], localProgress is antitone in the particle index, and any
particle whose stagger offset exceeds the progress has localProgress 0. -/
theorem stagger_ordering (i j n : ℕ) (p : ℚ) (hij : i < j) (hjn : j < n)
    (hp0 : 0 ≤ p) (hp1 : p ≤ 1) :
    localProgress p j n ≤ localProgress p i n ∧
    (∀ k, k < n → p < stagger k n → localProgress p k n = 0) := by
  have hn : 0 < n := Nat.lt_of_le_of_lt (Nat.zero_le j) hjn
  constructor
  · unfold localProgress
    exact clamp01_mono
      (morph_ratio_antitone (stagger_mono n hn (le_of_lt hij)) (stagger_lt_one hjn) hp1)
  · intro k hk hpk
    unfold localProgress
    apply clamp01_of_nonpos
    have hs1 : stagger k n < 1 := stagger_lt_one hk
    apply div_nonpos_of_nonpos_of_nonneg <;> linarith

/-- Witness for C5 at i = 1, j = 2, n = 10, p = 1/2. -/
theorem stagger_ordering_witness :
    localProgress (1/2) 2 10 ≤ localProgress (1/2) 1 10 ∧
    (∀ k, k < 10 → (1/2 : ℚ) < stagger k 10 → localProgress (1/2) k 10 = 0) :=
  stagger_ordering 1 2 10 (1/2) (by decide) (by decide) (by norm_num) (by norm_num)

lemma easeInOutCubic_mono {a b : ℚ} (ha : 0 ≤ a) (hab : a ≤ b) (hb : b ≤ 1) :
    easeInOutCubic a ≤ easeInOutCubic b := by
  unfold easeInOutCubic
  rcases lt_or_le a (1/2) with hah | hah
  · rcases lt_or_le b (1/2) with hbh | hbh
    · rw [if_pos hah, if_pos hbh]
      nlinarith [sq_nonneg (a + b), sq_nonneg (a - b)]
    · rw [if_pos hah, if_neg (not_lt.mpr hbh)]
      have hv0 : (0:ℚ) ≤ 2 - 2*b := by linarith
      have hv1 : 2 - 2*b ≤ 1 := by linarith
      nlinarith [sq_nonneg (1 - 2*a), sq_nonneg (2 - 2*b), mul_nonneg (mul_nonneg hv0 hv0) hv0,
        mul_nonneg ha ha]
  · rw [if_neg (not_lt.mpr hah), if_neg (not_lt.mpr (le_trans hah hab))]
    have h1 : (0:ℚ) ≤ 2 - 2*b := by linarith
    have h2 : 2 - 2*b ≤ 2 - 2*a := by linarith
    nlinarith [pow_le_pow_left h1 h2 3]

/-- Claim C10: easeInOutCubic maps [0,1] into [0,1], is monotone nondecreasing
on [0,1], and fixes 0, 1 and 1/2. -/
theorem easeInOutCubic_unit_interval (t : ℚ) (h0 : 0 ≤ t) (h1 : t ≤ 1) :
    (0 ≤ easeInOutCubic t ∧ easeInOutCubic t ≤ 1) ∧
    (∀ s, 0 ≤ s → s ≤ t → easeInOutCubic s ≤ easeInOutCubic t) ∧
    easeInOutCubic 0 = 0 ∧ easeInOutCubic 1 = 1 ∧ easeInOutCubic (1/2) = 1/2 := by
  have e0 : easeInOutCubic 0 = 0 := by norm_num [easeInOutCubic]
  have e1 : easeInOutCubic 1 = 1 := by norm_num [easeInOutCubic]
  have eh : easeInOutCubic (1/2) = 1/2 := by norm_num [easeInOutCubic]
  refine ⟨⟨?_, ?_⟩, ?_, e0, e1, eh⟩
  · have hm := easeInOutCubic_mono (le_refl 0) h0 h1
    rw [e0] at hm
    exact hm
  · have hm := easeInOutCubic_mono h0 h1 (le_refl 1)
    rw [e1] at hm
    exact hm
  · intro s hs0 hst
    exact easeInOutCubic_mono hs0 hst h1

/-- Witness for C10 at t = 3/4. -/
theorem easeInOutCubic_unit_interval_witness :
    (0 ≤ easeInOutCubic (3/4) ∧ easeInOutCubic (3/4) ≤ 1) ∧
    (∀ s, 0 ≤ s → s ≤ (3/4 : ℚ) → easeInOutCubic s ≤ easeInOutCubic (3/4)) ∧
    easeInOutCubic 0 = 0 ∧ easeInOutCubic 1 = 1 ∧ easeInOutCubic (1/2) = 1/2 :=
  easeInOutCubic_unit_interval (3/4) (by norm_num) (by norm_num)

/-- One interpolation update of one axis of one particle, from the per-frame
loop: positions[idx] = lerp(positions[idx], targetValue, localProgress * delta * 8). -/
def interpUpdate (cur target lp delta : ℚ) : ℚ := lerp cur target (lp * delta * 8)

/-- n repeated interpolation updates with fixed target, local progress and
frame delta (repeated step calls). -/
def interpIter (target lp delta : ℚ) : ℕ → ℚ → ℚ
  | 0, cur => cur
  | n + 1, cur => interpIter target lp delta n (interpUpdate cur target lp delta)

lemma interpUpdate_sub_target (cur target lp delta : ℚ) :
    interpUpdate cur target lp delta - target = (1 - lp * delta * 8) * (cur - target) := by
  unfold interpUpdate lerp
  ring

lemma interpIter_sub_target (target lp delta : ℚ) (n : ℕ) (cur : ℚ) :
    interpIter target lp delta n cur - target = (1 - lp * delta * 8)^n * (cur - target) := by
  induction n generalizing cur with
  | zero => simp [interpIter]
  | succ m ih =>
    rw [interpIter, ih, interpUpdate_sub_target]
    ring

/-- Counterexample to C1 as stated: at deltaTime = 1 (which is ≥ 0) and
localProgress = 1, a single update moves a particle at 0 with target 1 to 8,
so its distance to the target grows from 1 to 7: the update overshoots. -/
theorem interp_overshoots_at_large_delta :
    (0 : ℚ) ≤ 1 ∧ interpUpdate 0 1 1 1 = 8 ∧
    ¬ |interpUpdate 0 1 1 1 - 1| ≤ |(0 : ℚ) - 1| := by
  refine ⟨by norm_num, by norm_num [interpUpdate, lerp], ?_⟩
  norm_num [interpUpdate, lerp]

/-- Claim C1 (amended): for localProgress in [0,1] and deltaTime in [0, 1/8]
(so the lerp factor localProgress * deltaTime * 8 stays in [0,1]), one update
never overshoots, and repeated updates at localProgress = 1 (the value forced
by phaseProgress = 1) drive the distance to the target monotonically toward
zero. -/
theorem interp_no_overshoot (cur target lp delta : ℚ)
    (hlp0 : 0 ≤ lp) (hlp1 : lp ≤ 1) (hd0 : 0 ≤ delta) (hd : delta ≤ 1/8) :
    |interpUpdate cur target lp delta - target| ≤ |cur - target| ∧
    (∀ n, |interpIter target 1 delta (n + 1) cur - target| ≤
      |interpIter target 1 delta n cur - target|) ∧
    (0 < delta → ∀ ε : ℚ, 0 < ε →
      ∃ N, ∀ n, N ≤ n → |interpIter target 1 delta n cur - target| < ε) := by
  have ht0 : 0 ≤ 1 - lp * delta * 8 := by nlinarith
  have hr0 : 0 ≤ 1 - 1 * delta * 8 := by nlinarith
  have hr1 : 1 - 1 * delta * 8 ≤ 1 := by nlinarith
  refine ⟨?_, ?_, ?_⟩
  · rw [interpUpdate_sub_target, abs_mul, abs_of_nonneg ht0]
    have ht1 : 1 - lp * delta * 8 ≤ 1 := by nlinarith
    nlinarith [abs_nonneg (cur - target)]
  · intro n
    rw [interpIter_sub_target, interpIter_sub_target, abs_mul, abs_mul, pow_succ, abs_mul]
    have hrabs : |1 - 1 * delta * 8| ≤ 1 := by rw [abs_of_nonneg hr0]; exact hr1
    have hkey := mul_le_mul_of_nonneg_right
      (mul_le_mul_of_nonneg_left hrabs (abs_nonneg ((1 - 1 * delta * 8)^n)))
      (abs_nonneg (cur - target))
    simpa [mul_one] using hkey
  · intro hdpos ε hε
    have hrlt : 1 - 1 * delta * 8 < 1 := by nlinarith
    have hdnn : 0 ≤ |cur - target| := abs_nonneg _
    rcases eq_or_lt_of_le hdnn with h0 | h0
    · refine ⟨0, fun n _ => ?_⟩
      rw [interpIter_sub_target, abs_mul, abs_pow, ← h0, mul_zero]
      exact hε
    · obtain ⟨N, hN⟩ :=
        exists_pow_lt_of_lt_one (x := ε / (|cur - target| + 1)) (by positivity) hrlt
      refine ⟨N, fun n hn => ?_⟩
      rw [interpIter_sub_target, abs_mul, abs_pow, abs_of_nonneg hr0]
      have hmono : (1 - 1 * delta * 8)^n ≤ (1 - 1 * delta * 8)^N :=
        pow_le_pow_of_le_one hr0 (le_of_lt hrlt) hn
      have hstep : (1 - 1 * delta * 8)^n * |cur - target| ≤
          (1 - 1 * delta * 8)^N * |cur - target| :=
        mul_le_mul_of_nonneg_right hmono hdnn
      have hNd : (1 - 1 * delta * 8)^N * |cur - target| <
          (ε / (|cur - target| + 1)) * |cur - target| :=
        mul_lt_mul_of_pos_right hN h0
      have hfin : (ε / (|cur - target| + 1)) * |cur - target| ≤ ε := by
        rw [div_mul_eq_mul_div, div_le_iff (by positivity)]
        nlinarith
      linarith

/-- Witness for C1 (amended) at cur = 0, target = 1, lp = 1, delta = 1/10. -/
theorem interp_no_overshoot_witness :
    |interpUpdate 0 1 1 (1/10) - 1| ≤ |(0 : ℚ) - 1| ∧
    (∀ n, |interpIter 1 1 (1/10) (n + 1) 0 - 1| ≤ |interpIter 1 1 (1/10) n 0 - 1|) ∧
    (0 < (1/10 : ℚ) → ∀ ε : ℚ, 0 < ε →
      ∃ N, ∀ n, N ≤ n → |interpIter 1 1 (1/10) n 0 - 1| < ε) :=
  interp_no_overshoot 0 1 1 (1/10) (by norm_num) (by norm_num) (by norm_num) (by norm_num)

/-- Mutable state read by the cycling case of the useFrame loop:
the time since the current product was shown and the current product index. -/
structure CycState where
  productElapsed : ℚ
  currentProductIndex : ℕ
deriving DecidableEq

/-- One check of the cycling case of HeroAnimation's useFrame loop: when
productElapsed > productDuration it resets the product clock, advances the
product index modulo the number of products and emits the phase-change event
carrying the new index; otherwise it leaves the state unchanged and emits
nothing. -/
def cyclingAdvance (s : CycState) (numProducts : ℕ) (duration : ℚ) :
    CycState × Option ℕ :=
  let nextProductIndex := (s.currentProductIndex + 1) % numProducts
  if duration < s.productElapsed then
    (⟨0, nextProductIndex⟩, some nextProductIndex)
  else (s, none)

/-- Counterexample to C3 as stated: at productElapsed exactly equal to the
positive duration (6 = timeline.productDuration), the code does not advance:
the comparison in the source is strict (productElapsed > duration), so
reaching the duration emits no event and changes nothing. -/
theorem cycling_no_advance_at_exact_duration :
    (6 : ℚ) ≥ 6 ∧ (0 : ℚ) < 6 ∧
    cyclingAdvance ⟨6, 0⟩ 3 6 = (⟨6, 0⟩, none) := by
  refine ⟨le_refl 6, by norm_num, ?_⟩
  simp [cyclingAdvance]

/-- Claim C3 (amended): when the elapsed time strictly exceeds the positive
duration, the cycling machine resets the elapsed clock to 0, advances the
product index wrapping modulo the number of products, and the emitted event
carries nextProductIndex = (currentProductIndex + 1) mod numProducts. -/
theorem cycling_advance_wraps (s : CycState) (n : ℕ) (d : ℚ)
    (hd : 0 < d) (h : d < s.productElapsed) :
    cyclingAdvance s n d =
      (⟨0, (s.currentProductIndex + 1) % n⟩, some ((s.currentProductIndex + 1) % n)) := by
  simp [cyclingAdvance, if_pos h]

/-- Witness for C3 (amended) at elapsed = 7, duration = 6, index 1 of 3. -/
theorem cycling_advance_wraps_witness :
    cyclingAdvance ⟨7, 1⟩ 3 6 = (⟨0, 2⟩, some 2) := by
  have h := cycling_advance_wraps ⟨7, 1⟩ 3 6 (by norm_num) (by norm_num)
  simpa using h

/-- The three phases of the HeroAnimation state machine (first snapshot). -/
inductive HeroPhase
  | intro
  | preload
  | cycling
deriving DecidableEq

/-- Which phases run the rotation block: shouldRotate is set true in every
branch of the preload and cycling cases and false in every intro branch. -/
def rotationEnabled : HeroPhase → Bool
  | .intro => false
  | .preload => true
  | .cycling => true

/-- Frame-level state: active phase, elapsed time in that phase, and the
accumulated rotation angle ref. -/
structure HeroState where
  phase : HeroPhase
  phaseElapsed : ℚ
  rotationAngle : ℚ
deriving DecidableEq

/-- One useFrame call of the first HeroAnimation snapshot, restricted to the
phase clock and the rotation angle: the branch for the current phase runs with
the current elapsed time, schedules the next phase when the timeline duration
is exceeded (intro 3.5s, preload 4.0s, cycling product clock 6.0s), and the
rotation angle accumulates delta * 0.5 while rotation is enabled and is reset
to 0 on a frame whose phase has rotation disabled and whose angle is nonzero. -/
def heroFrame (s : HeroState) (delta : ℚ) : HeroState :=
  let e := s.phaseElapsed + delta
  let angle := if rotationEnabled s.phase then s.rotationAngle + delta * (1/2)
    else if s.rotationAngle ≠ 0 then 0 else s.rotationAngle
  match s.phase with
  | .intro => if 7/2 < e then ⟨.preload, 0, angle⟩ else ⟨.intro, e, angle⟩
  | .preload => if 4 < e then ⟨.cycling, 0, angle⟩ else ⟨.preload, e, angle⟩
  | .cycling => ⟨.cycling, if 6 < e then 0 else e, angle⟩

/-- Counterexample to C8 as stated: drive the machine from intro through
preload into cycling. The frame that moves preload to cycling runs with
rotation enabled, so the angle accumulated during preload (5/2 after a 5s
frame) is carried into cycling: on the first frame after entering the
rotation-enabled cycling phase from the rotation-enabled preload phase the
angle is 5/2, not 0. -/
theorem rotation_angle_carried_into_cycling :
    heroFrame ⟨.intro, 0, 0⟩ 4 = ⟨.preload, 0, 0⟩ ∧
    heroFrame ⟨.preload, 0, 0⟩ 5 = ⟨.cycling, 0, 5/2⟩ ∧
    rotationEnabled .preload = true ∧ rotationEnabled .cycling = true ∧
    (5/2 : ℚ) ≠ 0 := by
  refine ⟨?_, ?_, rfl, rfl, by norm_num⟩
  · simp [heroFrame, rotationEnabled]
    norm_num
  · simp [heroFrame, rotationEnabled]
    norm_num

/-- Claim C8 (amended): the rotation angle is 0 after any frame processed in a
phase with rotation disabled, so a rotation-enabled phase entered from a
non-rotating phase starts at angle 0; a direct transition between two
rotation-enabled phases (preload to cycling) instead carries the accumulated
angle over, as the counterexample shows. -/
theorem rotation_angle_zero_after_nonrotating_frame (s : HeroState) (delta : ℚ)
    (h : rotationEnabled s.phase = false) :
    (heroFrame s delta).rotationAngle = 0 := by
  have hphase : s.phase = .intro := by
    cases hp : s.phase <;> simp [hp, rotationEnabled] at h ⊢
  rcases s with ⟨p, e, a⟩
  simp only at hphase
  subst hphase
  by_cases ha : a = 0 <;> by_cases he : (7/2 : ℚ) < e + delta <;>
    simp [heroFrame, rotationEnabled, ha, he]

/-- Witness for C8 (amended): a frame in the intro phase with a nonzero stale
angle resets it to 0. -/
theorem rotation_angle_zero_witness :
    (heroFrame ⟨.intro, 0, 7⟩ 1).rotationAngle = 0 :=
  rotation_angle_zero_after_nonrotating_frame ⟨.intro, 0, 7⟩ 1 rfl

/-- extractModelPositions from WineBottleGeometry.tsx: given the collected
world-space vertices and a point count, generate a jittered fallback cube when
no vertices exist, stride-sample when vertices are plentiful, and cyclically
repeat vertices with a small jitter (offset 0.002 for the repeated copies)
when vertices are scarce.  Each Math.random() call is modelled by one value of
the rand stream. -/
def extractModelPositions (allVerts : List Pt) (pointCount : ℕ) (rand : ℕ → ℚ) :
    List Pt :=
  if allVerts.length = 0 then
    (List.range pointCount).map fun i =>
      ((rand (3*i) - 1/2) * 1, (rand (3*i+1) - 1/2) * 1, (rand (3*i+2) - 1/2) * 1)
  else if pointCount ≤ allVerts.length then
    let stride := allVerts.length / pointCount
    (List.range pointCount).map fun i =>
      allVerts.getD (min (i * stride) (allVerts.length - 1)) (0, 0, 0)
  else
    (List.range pointCount).map fun i =>
      let v := allVerts.getD (i % allVerts.length) (0, 0, 0)
      let offset : ℚ := if allVerts.length ≤ i then 1/500 else 0
      (v.1 + (rand (3*i) - 1/2) * offset,
       v.2.1 + (rand (3*i+1) - 1/2) * offset,
       v.2.2 + (rand (3*i+2) - 1/2) * offset)

/-- Claim C2: for every pointCount > 0 and every vertex list, the sampler
returns exactly pointCount points (in particular never an empty or undersized
set), the stride-sampling branch only ever forms in-bounds indices, and the
cyclic-repeat branch only ever forms in-bounds indices. -/
theorem extractModelPositions_exact_count (allVerts : List Pt) (pointCount : ℕ)
    (rand : ℕ → ℚ) (hpc : 0 < pointCount) :
    (extractModelPositions allVerts pointCount rand).length = pointCount ∧
    extractModelPositions allVerts pointCount rand ≠ [] ∧
    (∀ i, i < pointCount → pointCount ≤ allVerts.length →
      min (i * (allVerts.length / pointCount)) (allVerts.length - 1) <
        allVerts.length) ∧
    (∀ i, allVerts.length ≠ 0 → i % allVerts.length < allVerts.length) := by
  have hlen : (extractModelPositions allVerts pointCount rand).length = pointCount := by
    unfold extractModelPositions
    split
    · simp
    · split <;> simp
  refine ⟨hlen, ?_, ?_, ?_⟩
  · intro hnil
    rw [hnil] at hlen
    simp at hlen
    omega
  · intro i hi hle
    have hpos : 0 < allVerts.length := lt_of_lt_of_le hpc hle
    calc min (i * (allVerts.length / pointCount)) (allVerts.length - 1)
        ≤ allVerts.length - 1 := min_le_right _ _
      _ < allVerts.length := Nat.sub_lt hpos (by norm_num)
  · intro i hne
    exact Nat.mod_lt i (Nat.pos_of_ne_zero hne)

/-- Witness for C2 with an empty vertex list (fallback cube), two points. -/
theorem extractModelPositions_exact_count_witness :
    (extractModelPositions [] 2 (fun _ => 0)).length = 2 ∧
    extractModelPositions [] 2 (fun _ => 0) ≠ [] ∧
    (∀ i, i < 2 → 2 ≤ ([] : List Pt).length →
      min (i * (([] : List Pt).length / 2)) (([] : List Pt).length - 1) <
        ([] : List Pt).length) ∧
    (∀ i, ([] : List Pt).length ≠ 0 → i % ([] : List Pt).length < ([] : List Pt).length) :=
  extractModelPositions_exact_count [] 2 (fun _ => 0) (by norm_num)

/-- The target-length guard before the interpolation loop: if the selected
target array is missing or its length differs from the position buffer, the
scatter set is substituted. -/
def guardTarget (targetOpt : Option (List ℚ)) (scatter positions : List ℚ) :
    List ℚ :=
  match targetOpt with
  | none => scatter
  | some t => if t.length = positions.length then t else scatter

/-- The per-frame interpolation loop over the flat coordinate buffer: each
slot is lerped toward the target slot (reads falling back to 0 when out of
bounds, the ?? 0 in the source) with rate localProgress * delta * 8, where the
particle index is idx / 3. -/
def interpLoopFlat (positions target : List ℚ) (progress delta : ℚ) (n : ℕ) :
    List ℚ :=
  (List.range positions.length).map fun idx =>
    lerp (positions.getD idx 0) (target.getD idx 0)
      (localProgress progress (idx / 3) n * delta * 8)

/-- Claim C9: with the guard in place, the effective target always has exactly
the buffer's length (so every read index below the buffer length is in bounds
for it), the loop writes exactly the buffer's slots, and every written slot is
the defined rational lerp of the current value and the (fallback-0) target
read. -/
theorem interp_loop_safe (positions scatter : List ℚ) (targetOpt : Option (List ℚ))
    (progress delta : ℚ) (n : ℕ) (hs : scatter.length = positions.length) :
    (guardTarget targetOpt scatter positions).length = positions.length ∧
    (interpLoopFlat positions (guardTarget targetOpt scatter positions)
      progress delta n).length = positions.length ∧
    (∀ idx, idx < positions.length →
      idx < (guardTarget targetOpt scatter positions).length) ∧
    (∀ idx, idx < positions.length →
      (interpLoopFlat positions (guardTarget targetOpt scatter positions)
        progress delta n).getD idx 0 =
      lerp (positions.getD idx 0)
        ((guardTarget targetOpt scatter positions).getD idx 0)
        (localProgress progress (idx / 3) n * delta * 8)) := by
  have hg : (guardTarget targetOpt scatter positions).length = positions.length := by
    unfold guardTarget
    match targetOpt with
    | none => exact hs
    | some t =>
      by_cases h : t.length = positions.length <;> simp [h, hs]
  refine ⟨hg, by simp [interpLoopFlat], fun idx hidx => hg ▸ hidx, fun idx hidx => ?_⟩
  unfold interpLoopFlat
  rw [List.getD_eq_getElem?_getD, List.getElem?_map, List.getElem?_range hidx]
  simp

/-- Witness for C9 with a 3-slot buffer and a mismatched 2-slot target. -/
theorem interp_loop_safe_witness :
    (guardTarget (some [5, 6]) [9, 9, 9] [1, 2, 3]).length = ([1, 2, 3] : List ℚ).length ∧
    (interpLoopFlat [1, 2, 3] (guardTarget (some [5, 6]) [9, 9, 9] [1, 2, 3])
      1 (1/10) 1).length = ([1, 2, 3] : List ℚ).length ∧
    (∀ idx, idx < ([1, 2, 3] : List ℚ).length →
      idx < (guardTarget (some [5, 6]) [9, 9, 9] [1, 2, 3]).length) ∧
    (∀ idx, idx < ([1, 2, 3] : List ℚ).length →
      (interpLoopFlat [1, 2, 3] (guardTarget (some [5, 6]) [9, 9, 9] [1, 2, 3])
        1 (1/10) 1).getD idx 0 =
      lerp (([1, 2, 3] : List ℚ).getD idx 0)
        ((guardTarget (some [5, 6]) [9, 9, 9] [1, 2, 3]).getD idx 0)
        (localProgress 1 (idx / 3) 1 * (1/10) * 8)) :=
  interp_loop_safe [1, 2, 3] [9, 9, 9] (some [5, 6]) 1 (1/10) 1 (by rfl)

/-- Scale and vertical offset applied to a canonical target point in the
product phases: productScale = 0.85, productYOffset = -0.3. -/
def placeProduct (p : Pt) : Pt :=
  (p.1 * (17/20), p.2.1 * (17/20) + (-3/10), p.2.2 * (17/20))

/-- Rotation of a point around the vertical (Y) axis, given the cosine and
sine of the rotation angle. -/
def yRotate (c s : ℚ) (p : Pt) : Pt :=
  (p.1 * c - p.2.2 * s, p.2.1, p.1 * s + p.2.2 * c)

/-- The rotation block of the useFrame loop: for every slot of the position
buffer, overwrite the displayed position with the rotated, scaled and offset
canonical target coordinates (reads fall back to 0 when out of bounds). -/
def rotationBlock (positions target : List Pt) (c s : ℚ) : List Pt :=
  (List.range positions.length).map fun i =>
    let targetX := (target.getD i (0, 0, 0)).1 * (17/20)
    let targetY := (target.getD i (0, 0, 0)).2.1 * (17/20) + (-3/10)
    let targetZ := (target.getD i (0, 0, 0)).2.2 * (17/20)
    (targetX * c - targetZ * s, targetY, targetX * s + targetZ * c)

lemma localProgress_one {i n : ℕ} (h : i < n) : localProgress 1 i n = 1 := by
  unfold localProgress
  rw [div_self (by have := stagger_lt_one h; intro hc; rw [sub_eq_zero] at hc; linarith)]
  unfold clamp01
  norm_num

/-- Claim C4: in the rotating phases progress = 1 so every particle index has
localProgress 1 (the rotated set is exactly the fully arrived set), the block
recomputes every displayed position from the canonical target (scaled, offset,
then rotated around the vertical axis), the result never depends on the
already-interpolated current positions, and the rotation preserves the
horizontal radius and the height of each placed target point, so repeated
frames cannot accumulate drift or distortion. -/
theorem rotation_uses_canonical_target (positions target : List Pt) (c s : ℚ)
    (hpyth : c^2 + s^2 = 1) :
    (∀ i n, i < n → localProgress 1 i n = 1) ∧
    (rotationBlock positions target c s).length = positions.length ∧
    (∀ i, i < positions.length →
      (rotationBlock positions target c s).getD i (0, 0, 0) =
        yRotate c s (placeProduct (target.getD i (0, 0, 0)))) ∧
    (∀ q : List Pt, q.length = positions.length →
      rotationBlock q target c s = rotationBlock positions target c s) ∧
    (∀ p : Pt,
      (yRotate c s p).1^2 + (yRotate c s p).2.2^2 = p.1^2 + p.2.2^2 ∧
      (yRotate c s p).2.1 = p.2.1) := by
  refine ⟨fun i n h => localProgress_one h, by simp [rotationBlock], ?_, ?_, ?_⟩
  · intro i hi
    unfold rotationBlock
    rw [List.getD_eq_getElem?_getD, List.getElem?_map, List.getElem?_range hi]
    simp [yRotate, placeProduct]
  · intro q hq
    unfold rotationBlock
    rw [hq]
  · intro p
    refine ⟨?_, rfl⟩
    unfold yRotate
    simp only
    linear_combination (p.1^2 + p.2.2^2) * hpyth

/-- Witness for C4 with cosine 3/5, sine 4/5 and a singleton buffer. -/
theorem rotation_uses_canonical_target_witness :
    (∀ i n, i < n → localProgress 1 i n = 1) ∧
    (rotationBlock [((0:ℚ), (0:ℚ), (0:ℚ))] [((1:ℚ), (2:ℚ), (3:ℚ))] (3/5) (4/5)).length =
      [((0:ℚ), (0:ℚ), (0:ℚ))].length ∧
    (∀ i, i < [((0:ℚ), (0:ℚ), (0:ℚ))].length →
      (rotationBlock [((0:ℚ), (0:ℚ), (0:ℚ))] [((1:ℚ), (2:ℚ), (3:ℚ))] (3/5) (4/5)).getD i (0, 0, 0) =
        yRotate (3/5) (4/5) (placeProduct ([((1:ℚ), (2:ℚ), (3:ℚ))].getD i (0, 0, 0)))) ∧
    (∀ q : List Pt, q.length = [((0:ℚ), (0:ℚ), (0:ℚ))].length →
      rotationBlock q [((1:ℚ), (2:ℚ), (3:ℚ))] (3/5) (4/5) =
        rotationBlock [((0:ℚ), (0:ℚ), (0:ℚ))] [((1:ℚ), (2:ℚ), (3:ℚ))] (3/5) (4/5)) ∧
    (∀ p : Pt,
      (yRotate (3/5) (4/5) p).1^2 + (yRotate (3/5) (4/5) p).2.2^2 = p.1^2 + p.2.2^2 ∧
      (yRotate (3/5) (4/5) p).2.1 = p.2.1) :=
  rotation_uses_canonical_target [((0:ℚ), (0:ℚ), (0:ℚ))] [((1:ℚ), (2:ℚ), (3:ℚ))]
    (3/5) (4/5) (by norm_num)

/-- Number of barcode bars in the unnamed engine snapshot. -/
def barCount : ℕ := 40

/-- Base bar width: total width 1.8 divided by the bar count. -/
def baseBarWidth : ℚ := (9/5) / 40

/-- A bar width: the base width times the multiplier randomly drawn from the
table [1, 1, 1, 2, 2, 3, 4]. -/
def barWidth (mult : ℕ → ℕ) (b : ℕ) : ℚ := baseBarWidth * (mult b)

/-- Total width of all bars. -/
def totalBarWidth (mult : ℕ → ℕ) : ℚ := ∑ b in Finset.range barCount, barWidth mult b

/-- Center x of bar b: the running left edge plus half the bar width. -/
def barCenterX (mult : ℕ → ℕ) (b : ℕ) : ℚ :=
  -(totalBarWidth mult) / 2 + (∑ k in Finset.range b, barWidth mult k) + barWidth mult b / 2

/-- Math.floor((pointCount / barCount) * (barWidth / barWidths[0])): the
width-proportional integer share of points allotted to bar b. -/
def pointsPerBar (pointCount : ℕ) (mult : ℕ → ℕ) (b : ℕ) : ℕ :=
  (⌊((pointCount : ℚ) / (barCount : ℚ)) * (barWidth mult b / barWidth mult 0)⌋).toNat

/-- One generated point inside bar b, with the three jitter draws given. -/
def barPoint (mult : ℕ → ℕ) (rx ry rz : ℚ) (b : ℕ) : Pt :=
  (barCenterX mult b + (rx - 1/2) * barWidth mult b * (4/5),
   (ry - 1/2) * (9/10),
   (rz - 1/2) * (1/10))

/-- generateBarcodePositions from the unnamed engine snapshot, each output
point tagged with the bar that produced it: the per-bar proportional
distribution, then the fill loop adding one point to a randomly chosen bar
until pointCount points exist, then the trim to exactly pointCount points. -/
def generateBarcodePositions (pointCount : ℕ) (mult : ℕ → ℕ)
    (randBar rx ry rz : ℕ → ℚ) : List (ℕ × Pt) :=
  let base := (List.range barCount).flatMap fun b =>
    (List.range (pointsPerBar pointCount mult b)).map fun i =>
      (b, barPoint mult (rx (b * pointCount + i)) (ry (b * pointCount + i))
        (rz (b * pointCount + i)) b)
  let extra := (List.range (pointCount - base.length)).map fun k =>
    let b := (⌊randBar k * (barCount : ℚ)⌋).toNat
    (b, barPoint mult (rx (barCount * pointCount + k)) (ry (barCount * pointCount + k))
      (rz (barCount * pointCount + k)) b)
  (base ++ extra).take pointCount

/-- How many output points were generated for bar b. -/
def barTagCount (l : List (ℕ × Pt)) (b : ℕ) : ℕ := (l.filter (fun q => q.1 == b)).length

lemma barTagCount_cons (a : ℕ × Pt) (l : List (ℕ × Pt)) (b : ℕ) :
    barTagCount (a :: l) b = (if a.1 = b then 1 else 0) + barTagCount l b := by
  unfold barTagCount
  rw [List.filter_cons]
  by_cases h : a.1 = b <;> simp [h]
  omega

lemma sum_barTagCount (m : ℕ) : ∀ l : List (ℕ × Pt), (∀ q ∈ l, q.1 < m) →
    ∑ b in Finset.range m, barTagCount l b = l.length := by
  intro l
  induction l with
  | nil => intro _; simp [barTagCount]
  | cons a l ih =>
    intro hmem
    have ha : a.1 < m := hmem a (List.mem_cons_self a l)
    have hl : ∀ q ∈ l, q.1 < m := fun q hq => hmem q (List.mem_cons_of_mem a hq)
    simp only [barTagCount_cons, Finset.sum_add_distrib, ih hl, List.length_cons]
    rw [Finset.sum_ite_eq (Finset.range m) a.1 (fun _ => 1)]
    simp [Finset.mem_range.mpr ha]
    omega

/-- Claim C6: the barcode generator emits exactly pointCount points, every
point is tagged with a valid bar (the leftover points go to the randomly
chosen bars when the random draws lie in [0, 1)), and the per-bar point counts
sum to exactly pointCount even when pointCount is not divisible by the bar
count. -/
theorem barcode_exact_count (pointCount : ℕ) (mult : ℕ → ℕ)
    (randBar rx ry rz : ℕ → ℚ) (hr : ∀ k, 0 ≤ randBar k ∧ randBar k < 1) :
    (generateBarcodePositions pointCount mult randBar rx ry rz).length = pointCount ∧
    (∀ q ∈ generateBarcodePositions pointCount mult randBar rx ry rz, q.1 < barCount) ∧
    ∑ b in Finset.range barCount,
      barTagCount (generateBarcodePositions pointCount mult randBar rx ry rz) b =
        pointCount := by
  have hmem : ∀ q ∈ generateBarcodePositions pointCount mult randBar rx ry rz,
      q.1 < barCount := by
    intro q hq
    unfold generateBarcodePositions at hq
    simp only at hq
    have hq2 := List.mem_of_mem_take hq
    rw [List.mem_append] at hq2
    rcases hq2 with hb | he
    · rw [List.mem_flatMap] at hb
      obtain ⟨b, hbr, hbm⟩ := hb
      rw [List.mem_map] at hbm
      obtain ⟨i, _, hi⟩ := hbm
      rw [← hi]
      exact List.mem_range.mp hbr
    · rw [List.mem_map] at he
      obtain ⟨k, _, hk⟩ := he
      rw [← hk]
      have hub : randBar k * (barCount : ℚ) < (barCount : ℚ) := by
        have h1 := (hr k).2
        have h0 : (0:ℚ) < (barCount : ℚ) := by norm_num [barCount]
        nlinarith
      have hfl : ⌊randBar k * (barCount : ℚ)⌋ < (barCount : ℤ) :=
        Int.floor_lt.mpr (by exact_mod_cast hub)
      have hb40 : barCount = 40 := rfl
      simp only
      omega
  have hlen : (generateBarcodePositions pointCount mult randBar rx ry rz).length
      = pointCount := by
    unfold generateBarcodePositions
    simp only [List.length_take, List.length_append, List.length_map, List.length_range]
    omega
  exact ⟨hlen, hmem, by rw [sum_barTagCount barCount _ hmem, hlen]⟩

/-- Witness for C6 at pointCount = 7, all multipliers 1, all random draws 0. -/
theorem barcode_exact_count_witness :
    (generateBarcodePositions 7 (fun _ => 1) (fun _ => 0) (fun _ => 0) (fun _ => 0)
      (fun _ => 0)).length = 7 ∧
    (∀ q ∈ generateBarcodePositions 7 (fun _ => 1) (fun _ => 0) (fun _ => 0) (fun _ => 0)
      (fun _ => 0), q.1 < barCount) ∧
    ∑ b in Finset.range barCount,
      barTagCount (generateBarcodePositions 7 (fun _ => 1) (fun _ => 0) (fun _ => 0)
        (fun _ => 0) (fun _ => 0)) b = 7 :=
  barcode_exact_count 7 (fun _ => 1) (fun _ => 0) (fun _ => 0) (fun _ => 0) (fun _ => 0)
    (fun _ => ⟨le_refl 0, by norm_num⟩)

/-- Minimum of a nonempty list of rationals (0 for the empty list), the
one-dimensional content of THREE.Box3 expansion. -/
def qlo : List ℚ → ℚ
  | [] => 0
  | x :: xs => xs.foldl min x

/-- Maximum of a nonempty list of rationals (0 for the empty list). -/
def qhi : List ℚ → ℚ
  | [] => 0
  | x :: xs => xs.foldl max x

/-- The x components of a point list. -/
def xsOf (ps : List Pt) : List ℚ := ps.map fun p => p.1

/-- The y components of a point list. -/
def ysOf (ps : List Pt) : List ℚ := ps.map fun p => p.2.1

/-- The z components of a point list. -/
def zsOf (ps : List Pt) : List ℚ := ps.map fun p => p.2.2

/-- Bounding-box center (THREE.Box3.getCenter): componentwise (min + max) / 2. -/
def boxCenter (ps : List Pt) : Pt :=
  ((qlo (xsOf ps) + qhi (xsOf ps)) / 2,
   (qlo (ysOf ps) + qhi (ysOf ps)) / 2,
   (qlo (zsOf ps) + qhi (zsOf ps)) / 2)

/-- Maximum bounding-box dimension: Math.max(size.x, size.y, size.z). -/
def maxDim (ps : List Pt) : ℚ :=
  max (max (qhi (xsOf ps) - qlo (xsOf ps)) (qhi (ysOf ps) - qlo (ysOf ps)))
    (qhi (zsOf ps) - qlo (zsOf ps))

/-- The recentering and rescaling step of useTShirtPositions: subtract the
bounding-box center from every point, then multiply by
targetSize / maxDimension with targetSize = 3.5. -/
def centerAndScale (ps : List Pt) : List Pt :=
  ps.map fun p =>
    ((p.1 - (boxCenter ps).1) * ((7/2) / maxDim ps),
     (p.2.1 - (boxCenter ps).2.1) * ((7/2) / maxDim ps),
     (p.2.2 - (boxCenter ps).2.2) * ((7/2) / maxDim ps))

lemma foldl_min_affine (c k : ℚ) (hk : 0 ≤ k) :
    ∀ (l : List ℚ) (a : ℚ),
      (l.map fun x => (x - c) * k).foldl min ((a - c) * k) = (l.foldl min a - c) * k := by
  intro l
  induction l with
  | nil => intro a; rfl
  | cons x xs ih =>
    intro a
    simp only [List.map_cons, List.foldl_cons]
    rw [← ih (min a x)]
    congr 1
    rw [← min_sub_sub_right, ← min_mul_of_nonneg _ _ hk]

lemma foldl_max_affine (c k : ℚ) (hk : 0 ≤ k) :
    ∀ (l : List ℚ) (a : ℚ),
      (l.map fun x => (x - c) * k).foldl max ((a - c) * k) = (l.foldl max a - c) * k := by
  intro l
  induction l with
  | nil => intro a; rfl
  | cons x xs ih =>
    intro a
    simp only [List.map_cons, List.foldl_cons]
    rw [← ih (max a x)]
    congr 1
    rw [← max_sub_sub_right, ← max_mul_of_nonneg _ _ hk]

lemma qlo_affine (c k : ℚ) (hk : 0 ≤ k) (l : List ℚ) (hl : l ≠ []) :
    qlo (l.map fun x => (x - c) * k) = (qlo l - c) * k := by
  match l with
  | [] => exact absurd rfl hl
  | x :: xs =>
    simp only [List.map_cons, qlo]
    exact foldl_min_affine c k hk xs x

lemma qhi_affine (c k : ℚ) (hk : 0 ≤ k) (l : List ℚ) (hl : l ≠ []) :
    qhi (l.map fun x => (x - c) * k) = (qhi l - c) * k := by
  match l with
  | [] => exact absurd rfl hl
  | x :: xs =>
    simp only [List.map_cons, qhi]
    exact foldl_max_affine c k hk xs x

lemma xsOf_centerAndScale (ps : List Pt) :
    xsOf (centerAndScale ps) =
      (xsOf ps).map fun x => (x - (boxCenter ps).1) * ((7/2) / maxDim ps) := by
  simp only [xsOf, centerAndScale, List.map_map]
  rfl

lemma ysOf_centerAndScale (ps : List Pt) :
    ysOf (centerAndScale ps) =
      (ysOf ps).map fun x => (x - (boxCenter ps).2.1) * ((7/2) / maxDim ps) := by
  simp only [ysOf, centerAndScale, List.map_map]
  rfl

lemma zsOf_centerAndScale (ps : List Pt) :
    zsOf (centerAndScale ps) =
      (zsOf ps).map fun x => (x - (boxCenter ps).2.2) * ((7/2) / maxDim ps) := by
  simp only [zsOf, centerAndScale, List.map_map]
  rfl

/-- Claim C7 (amended): the T-shirt mesh-sampled generator step really does
recenter and uniformly rescale: for any nonempty vertex list with positive
bounding dimension, the processed list has bounding-box center exactly at the
origin and maximum bounding dimension exactly 3.5. -/
theorem tshirt_centered_and_scaled (ps : List Pt) (hne : ps ≠ [])
    (hdim : 0 < maxDim ps) :
    boxCenter (centerAndScale ps) = (0, 0, 0) ∧
    maxDim (centerAndScale ps) = 7/2 := by
  have hk : 0 ≤ (7/2) / maxDim ps := by positivity
  have hxne : xsOf ps ≠ [] := by
    simp only [xsOf, ne_eq, List.map_eq_nil_iff]
    exact hne
  have hyne : ysOf ps ≠ [] := by
    simp only [ysOf, ne_eq, List.map_eq_nil_iff]
    exact hne
  have hzne : zsOf ps ≠ [] := by
    simp only [zsOf, ne_eq, List.map_eq_nil_iff]
    exact hne
  have hx1 := qlo_affine (boxCenter ps).1 _ hk (xsOf ps) hxne
  have hx2 := qhi_affine (boxCenter ps).1 _ hk (xsOf ps) hxne
  have hy1 := qlo_affine (boxCenter ps).2.1 _ hk (ysOf ps) hyne
  have hy2 := qhi_affine (boxCenter ps).2.1 _ hk (ysOf ps) hyne
  have hz1 := qlo_affine (boxCenter ps).2.2 _ hk (zsOf ps) hzne
  have hz2 := qhi_affine (boxCenter ps).2.2 _ hk (zsOf ps) hzne
  constructor
  · unfold boxCenter
    rw [xsOf_centerAndScale, ysOf_centerAndScale, zsOf_centerAndScale,
      hx1, hx2, hy1, hy2, hz1, hz2]
    have hcx : (boxCenter ps).1 = (qlo (xsOf ps) + qhi (xsOf ps)) / 2 := rfl
    have hcy : (boxCenter ps).2.1 = (qlo (ysOf ps) + qhi (ysOf ps)) / 2 := rfl
    have hcz : (boxCenter ps).2.2 = (qlo (zsOf ps) + qhi (zsOf ps)) / 2 := rfl
    rw [hcx, hcy, hcz]
    refine Prod.ext ?_ (Prod.ext ?_ ?_) <;> simp only <;> ring
  · unfold maxDim
    rw [xsOf_centerAndScale, ysOf_centerAndScale, zsOf_centerAndScale,
      hx1, hx2, hy1, hy2, hz1, hz2]
    have hsz : ∀ lo hi c : ℚ, (hi - c) * ((7/2) / maxDim ps) - (lo - c) * ((7/2) / maxDim ps)
        = (hi - lo) * ((7/2) / maxDim ps) := fun lo hi c => by ring
    rw [hsz, hsz, hsz, ← max_mul_of_nonneg _ _ hk, ← max_mul_of_nonneg _ _ hk]
    show maxDim ps * ((7/2) / maxDim ps) = 7/2
    rw [mul_comm, div_mul_cancel₀]
    exact ne_of_gt hdim

/-- Witness for C7 (amended) on the two-point list [(0,0,0), (1,1,1)]. -/
theorem tshirt_centered_and_scaled_witness :
    boxCenter (centerAndScale [((0:ℚ), (0:ℚ), (0:ℚ)), ((1:ℚ), (1:ℚ), (1:ℚ))]) = (0, 0, 0) ∧
    maxDim (centerAndScale [((0:ℚ), (0:ℚ), (0:ℚ)), ((1:ℚ), (1:ℚ), (1:ℚ))]) = 7/2 :=
  tshirt_centered_and_scaled [((0:ℚ), (0:ℚ), (0:ℚ)), ((1:ℚ), (1:ℚ), (1:ℚ))]
    (by simp) (by norm_num [maxDim, qlo, qhi, xsOf, ysOf, zsOf, min_def, max_def])

/-- The scaling, upright rotation and vertical offset that
useWineBottlePositions applies to the extracted model positions: scale 0.08,
rotate by the stand-up angle around X, rotate by the spin angle around Y (the
cosines and sines of those angles are passed in), then add the baked-in
vertical offset yOffset = -1.3. -/
def wineBottleTransform (cX sX cY sY : ℚ) (positions : List Pt) : List Pt :=
  positions.map fun p =>
    let x := p.1 * (2/25)
    let y := p.2.1 * (2/25)
    let z := p.2.2 * (2/25)
    let y1 := y * cX - z * sX
    let z1 := y * sX + z * cX
    let x2 := x * cY + z1 * sY
    let z2 := -x * sY + z1 * cY
    (x2, y1 + (-13/10), z2)

/-- The full wine-bottle shape generator: extract model positions, then apply
the scale, the upright rotations and the vertical offset. -/
def wineBottlePositionsModel (allVerts : List Pt) (pointCount : ℕ) (rand : ℕ → ℚ)
    (cX sX cY sY : ℚ) : List Pt :=
  wineBottleTransform cX sX cY sY (extractModelPositions allVerts pointCount rand)

/-- Counterexample to C7 as stated: the wine-bottle generator bakes the
per-phase vertical placement offset -1.3 into its output.  With the single
vertex (0,0,0) and one requested point (and the exact rational values
cos(-pi/2) = 0 and sin(-pi/2) = -1 for both rotations), the generator emits
the single point (0, -1.3, 0), whose bounding-box center is not the origin. -/
theorem wine_generator_not_origin_centered :
    wineBottlePositionsModel [((0:ℚ), (0:ℚ), (0:ℚ))] 1 (fun _ => 1/2) 0 (-1) 0 (-1) =
      [((0:ℚ), -13/10, (0:ℚ))] ∧
    boxCenter (wineBottlePositionsModel [((0:ℚ), (0:ℚ), (0:ℚ))] 1 (fun _ => 1/2)
      0 (-1) 0 (-1)) ≠ (0, 0, 0) := by
  have h1 : extractModelPositions [((0:ℚ), (0:ℚ), (0:ℚ))] 1 (fun _ => 1/2) =
      [((0:ℚ), (0:ℚ), (0:ℚ))] := by
    norm_num [extractModelPositions, List.range_succ]
  have h2 : wineBottlePositionsModel [((0:ℚ), (0:ℚ), (0:ℚ))] 1 (fun _ => 1/2)
      0 (-1) 0 (-1) = [((0:ℚ), -13/10, (0:ℚ))] := by
    rw [wineBottlePositionsModel, h1]
    norm_num [wineBottleTransform]
  refine ⟨h2, ?_⟩
  rw [h2]
  simp only [boxCenter, qlo, qhi, xsOf, ysOf, zsOf, List.map_cons, List.map_nil,
    List.foldl_nil, Prod.mk.injEq]
  norm_num

end ParticleMorph
